import Mathlib

/-!
Shallow embedding of the `ringbuf-dev` kernel module (kernel/ringbuf.c,
kernel/common.h): a dynamic circular byte queue driven by three ioctl
opcodes (SET_SIZE_OF_QUEUE, PUSH_DATA, POP_DATA).

Bytes are modelled as `Nat` values, kernel storage as a `List Nat` whose
length is the capacity, negative errno returns as an explicit error type.
The global `struct ringbuf rb` becomes an explicit state threaded through
the operations; user-space interaction (copy_from_user / copy_to_user /
put_user / kmalloc success) is modelled by explicit boolean (or Option)
inputs, since those collaborators are external to the module.
-/

namespace Ringbufdev

/-- The negative errno values the module actually returns, as a tagged type:
`-EINVAL`, `-ENOMEM`, `-ENOSPC`, `-EFAULT`, `-ERESTARTSYS`. -/
inductive Err where
  | EINVAL
  | ENOMEM
  | ENOSPC
  | EFAULT
  | ERESTARTSYS
deriving DecidableEq, Repr

/-- `struct ringbuf`: storage plus head/tail/count bookkeeping.
`buf` models the `kmalloc`'d byte region (`[]` models a NULL `buf`);
`size` is the capacity. The wait queue and mutex fields carry no
sequential state and are not represented. -/
structure Ringbuf where
  buf : List Nat
  size : Nat
  head : Nat
  tail : Nat
  count : Nat
deriving DecidableEq, Repr

/-- The zero-initialised static global `rb` at module load, which is also
the state `ringbuf_free` leaves behind: NULL buffer, all fields 0. -/
def freeState : Ringbuf :=
  { buf := [], size := 0, head := 0, tail := 0, count := 0 }

/-- `ringbuf_free`: kfrees the buffer and zeroes every field. -/
def ringbuf_free (_rb : Ringbuf) : Ringbuf := freeState

/-- `ringbuf_init(sz)`: rejects `sz == 0` with `-EINVAL`; models
`kmalloc(sz)` by the input `alloc` (`none` = allocation failure, giving
`-ENOMEM` with the buffer left NULL; `some mem` = the fresh block, of
length `sz` by the kmalloc contract). On success sets
`head = tail = count = 0` and `size = sz`. -/
def ringbuf_init (rb : Ringbuf) (sz : Nat) (alloc : Option (List Nat)) :
    Except Err Unit × Ringbuf :=
  if sz = 0 then
    (.error .EINVAL, rb)
  else
    match alloc with
    | none => (.error .ENOMEM, { rb with buf := [] })
    | some mem =>
        (.ok (), { buf := mem, size := sz, head := 0, tail := 0, count := 0 })

/-- The byte-copy loop of `ringbuf_push_locked`: for each byte of `kdata`,
`rb.buf[rb.tail] = kdata[i]; rb.tail = (rb.tail + 1) % rb.size`. -/
def pushLoop (rb : Ringbuf) (kdata : List Nat) : Ringbuf :=
  match kdata with
  | [] => rb
  | b :: rest =>
      pushLoop
        { rb with buf := rb.buf.set rb.tail b, tail := (rb.tail + 1) % rb.size }
        rest

/-- `ringbuf_push_locked(kdata, len)`: fails `-ENOSPC` when
`len > rb.size - rb.count` (size_t arithmetic; under the invariant
`count ≤ size` this agrees with truncated Nat subtraction), otherwise
runs the copy loop and adds `len` to `count`, returning `len`. -/
def ringbuf_push_locked (rb : Ringbuf) (kdata : List Nat) :
    Except Err Nat × Ringbuf :=
  if kdata.length > rb.size - rb.count then
    (.error .ENOSPC, rb)
  else
    let rb1 := pushLoop rb kdata
    (.ok kdata.length, { rb1 with count := rb1.count + kdata.length })

/-- The byte-copy loop of `ringbuf_pop_locked`: `tocopy` iterations of
`out[i] = rb.buf[rb.head]; rb.head = (rb.head + 1) % rb.size`, returning
the bytes in output order. -/
def popLoop (rb : Ringbuf) (n : Nat) : Ringbuf × List Nat :=
  match n with
  | 0 => (rb, [])
  | Nat.succ m =>
      let b := rb.buf.getD rb.head 0
      let r := popLoop { rb with head := (rb.head + 1) % rb.size } m
      (r.1, b :: r.2)

/-- `ringbuf_pop_locked(out, len)`: copies `tocopy = min len count` bytes
out starting at `head`, then subtracts `tocopy` from `count`; returns
`tocopy` and the copied bytes. -/
def ringbuf_pop_locked (rb : Ringbuf) (len : Nat) : Nat × List Nat × Ringbuf :=
  let tocopy := min len rb.count
  let r := popLoop rb tocopy
  (tocopy, r.2, { r.1 with count := rb.count - tocopy })

/-- Outcome of one `ringbuf_ioctl` call: a nonnegative return value, a
negative errno, or (for POP_DATA on an empty buffer with no signal and no
concurrent pusher) an indefinite suspension in `wait_event_interruptible`. -/
inductive IoctlResult where
  | ok (n : Nat)
  | err (e : Err)
  | blocks
deriving DecidableEq, Repr

/-- User-side inputs of a PUSH_DATA call: whether `copy_from_user` of the
`queue_data` header succeeds, the header's `length` field (a signed int),
whether the `kmalloc` of the staging buffer succeeds, whether the
`copy_from_user` of the payload succeeds, and the payload bytes at
`ud.data` (of length `ud.length` when the copy succeeds). -/
structure UserPush where
  copyHdrOk : Bool
  length : Int
  kmallocOk : Bool
  copyDataOk : Bool
  data : List Nat
deriving DecidableEq, Repr

/-- User-side inputs of a POP_DATA call: header copy success, requested
`length`, staging `kmalloc` success, whether a signal interrupts the wait
(when the buffer is empty), and success of the output `copy_to_user` and
of the `put_user` updating the header's length field. -/
structure UserPop where
  copyHdrOk : Bool
  length : Int
  kmallocOk : Bool
  interrupted : Bool
  copyOutOk : Bool
  putUserOk : Bool
deriving DecidableEq, Repr

/-- One ioctl request together with its user-side environment. `unknown c`
stands for any `cmd` value other than the three opcode macros (the ioctl
numbers are distinct by construction of `_IOW`/`_IOR`). -/
inductive Request where
  | setSize (copyOk : Bool) (ks : Int) (alloc : Option (List Nat))
  | pushData (u : UserPush)
  | popData (u : UserPop)
  | unknown (cmd : Nat)
deriving DecidableEq, Repr

/-- SET_SIZE_OF_QUEUE: copy the int from user (`-EFAULT` on failure),
reject `ks ≤ 0` with `-EINVAL`, then under the lock `ringbuf_free()`
followed by `ringbuf_init((size_t)ks)`, returning init's result. -/
def ioctl_setsize (rb : Ringbuf) (copyOk : Bool) (ks : Int)
    (alloc : Option (List Nat)) : IoctlResult × Ringbuf :=
  if !copyOk then
    (.err .EFAULT, rb)
  else if ks ≤ 0 then
    (.err .EINVAL, rb)
  else
    let rb1 := ringbuf_free rb
    match ringbuf_init rb1 ks.toNat alloc with
    | (.ok _, rb2) => (.ok 0, rb2)
    | (.error e, rb2) => (.err e, rb2)

/-- PUSH_DATA: copy the header (`-EFAULT`), reject `ud.length ≤ 0`
(`-EINVAL`), `kmalloc` the staging buffer (`-ENOMEM`), copy the payload
into it (`-EFAULT`, buffer untouched), then under the lock call
`ringbuf_push_locked`; on a positive return wake blocked poppers. -/
def ioctl_push (rb : Ringbuf) (u : UserPush) : IoctlResult × Ringbuf :=
  if !u.copyHdrOk then
    (.err .EFAULT, rb)
  else if u.length ≤ 0 then
    (.err .EINVAL, rb)
  else if !u.kmallocOk then
    (.err .ENOMEM, rb)
  else if !u.copyDataOk then
    (.err .EFAULT, rb)
  else
    match ringbuf_push_locked rb u.data with
    | (.ok n, rb1) => (.ok n, rb1)
    | (.error e, rb1) => (.err e, rb1)

/-- POP_DATA: copy the header (`-EFAULT`), reject `ud.length ≤ 0`
(`-EINVAL`), `kmalloc` the staging buffer (`-ENOMEM`); then the wait
loop: with `count > 0` pop under the lock, otherwise either the wait is
interrupted by a signal (`-ERESTARTSYS`, buffer untouched) or the caller
stays suspended (`blocks` — sequentially, no concurrent push can occur).
After a positive pop, `copy_to_user` the bytes and `put_user` the actual
count (`-EFAULT` on either, the pop already done). The third component
is the byte list actually written into the user's region. -/
def ioctl_pop (rb : Ringbuf) (u : UserPop) : IoctlResult × Ringbuf × List Nat :=
  if !u.copyHdrOk then
    (.err .EFAULT, rb, [])
  else if u.length ≤ 0 then
    (.err .EINVAL, rb, [])
  else if !u.kmallocOk then
    (.err .ENOMEM, rb, [])
  else if 0 < rb.count then
    let r := ringbuf_pop_locked rb u.length.toNat
    if 0 < r.1 then
      if !u.copyOutOk then
        (.err .EFAULT, r.2.2, [])
      else if !u.putUserOk then
        (.err .EFAULT, r.2.2, r.2.1)
      else
        (.ok r.1, r.2.2, r.2.1)
    else
      (.ok r.1, r.2.2, [])
  else if u.interrupted then
    (.err .ERESTARTSYS, rb, [])
  else
    (.blocks, rb, [])

/-- `ringbuf_ioctl`: dispatch on the opcode; the `default` case of the
switch returns `-EINVAL`. -/
def ringbuf_ioctl (rb : Ringbuf) (req : Request) :
    IoctlResult × Ringbuf × List Nat :=
  match req with
  | .setSize copyOk ks alloc =>
      let r := ioctl_setsize rb copyOk ks alloc
      (r.1, r.2, [])
  | .pushData u =>
      let r := ioctl_push rb u
      (r.1, r.2, [])
  | .popData u => ioctl_pop rb u
  | .unknown _ => (.err .EINVAL, rb, [])

/-- Environment contract for one request: `kmalloc(n)` returns a block of
exactly `n` bytes, and a successful `copy_from_user` of `ud.length` bytes
stages exactly `ud.length` bytes. -/
def Request.wf : Request → Bool
  | .setSize _ ks (some mem) => mem.length = ks.toNat
  | .setSize _ _ none => true
  | .pushData u => u.data.length = u.length.toNat
  | _ => true

/-- State after one ioctl call. -/
def applyReq (rb : Ringbuf) (req : Request) : Ringbuf :=
  (ringbuf_ioctl rb req).2.1

/-- State after a sequence of ioctl calls starting from module load. -/
def runReqs (reqs : List Request) : Ringbuf :=
  reqs.foldl applyReq freeState

/-- The structural invariant of `struct ringbuf`: the storage has exactly
`size` bytes, `count ≤ size`, the indices are in range while a buffer
instance exists (`0 < size`), and the freed/uninitialised state
(`size = 0`) has all fields zero. -/
def Inv (rb : Ringbuf) : Prop :=
  rb.buf.length = rb.size ∧
  rb.count ≤ rb.size ∧
  (0 < rb.size → rb.head < rb.size ∧ rb.tail < rb.size) ∧
  (rb.size = 0 → rb.head = 0 ∧ rb.tail = 0 ∧ rb.count = 0)

instance (rb : Ringbuf) : Decidable (Inv rb) := by
  unfold Inv
  infer_instance

/-- The queue contents as seen by a reader: the `count` bytes starting at
`head`, wrapping modulo `size`. -/
def contents (rb : Ringbuf) : List Nat :=
  (List.range rb.count).map (fun i => rb.buf.getD ((rb.head + i) % rb.size) 0)

/-!
Guarded variants of the two locked operations: every `% size` of the C
loops goes through `modG`, whose `none` branch is the division-by-zero
case that C leaves undefined. The claims show this branch is unreachable
from any reachable state.
-/

/-- `a % b`, refusing the undefined case `b = 0`. -/
def modG (a b : Nat) : Option Nat :=
  if b = 0 then none else some (a % b)

/-- `pushLoop` with the guarded modulo. -/
def pushLoopG (rb : Ringbuf) (kdata : List Nat) : Option Ringbuf :=
  match kdata with
  | [] => some rb
  | b :: rest =>
      match modG (rb.tail + 1) rb.size with
      | none => none
      | some t =>
          pushLoopG { rb with buf := rb.buf.set rb.tail b, tail := t } rest

/-- `ringbuf_push_locked` with the guarded modulo. -/
def ringbuf_push_lockedG (rb : Ringbuf) (kdata : List Nat) :
    Option (Except Err Nat × Ringbuf) :=
  if kdata.length > rb.size - rb.count then
    some (.error .ENOSPC, rb)
  else
    match pushLoopG rb kdata with
    | none => none
    | some rb1 => some (.ok kdata.length, { rb1 with count := rb1.count + kdata.length })

/-- `popLoop` with the guarded modulo. -/
def popLoopG (rb : Ringbuf) (n : Nat) : Option (Ringbuf × List Nat) :=
  match n with
  | 0 => some (rb, [])
  | Nat.succ m =>
      let b := rb.buf.getD rb.head 0
      match modG (rb.head + 1) rb.size with
      | none => none
      | some h =>
          match popLoopG { rb with head := h } m with
          | none => none
          | some r => some (r.1, b :: r.2)

/-- `ringbuf_pop_locked` with the guarded modulo. -/
def ringbuf_pop_lockedG (rb : Ringbuf) (len : Nat) :
    Option (Nat × List Nat × Ringbuf) :=
  let tocopy := min len rb.count
  match popLoopG rb tocopy with
  | none => none
  | some r => some (tocopy, r.2, { r.1 with count := rb.count - tocopy })

/-! ### Modular-arithmetic helpers -/

theorem mod_shift_ne {size tail k : Nat} (ht : tail < size) (hk0 : 0 < k)
    (hks : k < size) : tail ≠ (tail + k) % size := by
  rcases Nat.lt_or_ge (tail + k) size with h | h
  · rw [Nat.mod_eq_of_lt h]; omega
  · rw [Nat.mod_eq_sub_mod h, Nat.mod_eq_of_lt (by omega)]; omega

theorem add_mod_inj {size head i j : Nat} (hi : i < size) (hj : j < size)
    (h : (head + i) % size = (head + j) % size) : i = j := by
  have h2 : i ≡ j [MOD size] := Nat.ModEq.add_left_cancel' head h
  have h3 : i % size = j % size := h2
  rwa [Nat.mod_eq_of_lt hi, Nat.mod_eq_of_lt hj] at h3

/-! ### `pushLoop` lemmas -/

theorem pushLoop_size (kdata : List Nat) : ∀ rb : Ringbuf,
    (pushLoop rb kdata).size = rb.size := by
  induction kdata with
  | nil => intro rb; rfl
  | cons b rest ih => intro rb; simp [pushLoop, ih]

theorem pushLoop_head (kdata : List Nat) : ∀ rb : Ringbuf,
    (pushLoop rb kdata).head = rb.head := by
  induction kdata with
  | nil => intro rb; rfl
  | cons b rest ih => intro rb; simp [pushLoop, ih]

theorem pushLoop_count (kdata : List Nat) : ∀ rb : Ringbuf,
    (pushLoop rb kdata).count = rb.count := by
  induction kdata with
  | nil => intro rb; rfl
  | cons b rest ih => intro rb; simp [pushLoop, ih]

theorem pushLoop_buf_length (kdata : List Nat) : ∀ rb : Ringbuf,
    (pushLoop rb kdata).buf.length = rb.buf.length := by
  induction kdata with
  | nil => intro rb; rfl
  | cons b rest ih => intro rb; simp [pushLoop, ih]

theorem pushLoop_tail (kdata : List Nat) : ∀ rb : Ringbuf, rb.tail < rb.size →
    (pushLoop rb kdata).tail = (rb.tail + kdata.length) % rb.size := by
  induction kdata with
  | nil => intro rb ht; simp [pushLoop, Nat.mod_eq_of_lt ht]
  | cons b rest ih =>
      intro rb ht
      have hsz : 0 < rb.size := by omega
      have ht1 : (rb.tail + 1) % rb.size < rb.size := Nat.mod_lt _ hsz
      have h2 := ih { rb with buf := rb.buf.set rb.tail b,
                              tail := (rb.tail + 1) % rb.size } ht1
      simp only [pushLoop] at h2 ⊢
      rw [h2]
      simp only [List.length_cons, Nat.mod_add_mod]
      congr 1
      omega

theorem pushLoop_getD_frame (kdata : List Nat) : ∀ rb : Ringbuf,
    rb.tail < rb.size →
    ∀ p : Nat, (∀ j, j < kdata.length → p ≠ (rb.tail + j) % rb.size) →
    (pushLoop rb kdata).buf.getD p 0 = rb.buf.getD p 0 := by
  induction kdata with
  | nil => intro rb _ p _; rfl
  | cons b rest ih =>
      intro rb ht p hp
      have hsz : 0 < rb.size := by omega
      have ht1 : (rb.tail + 1) % rb.size < rb.size := Nat.mod_lt _ hsz
      have hp0 : p ≠ rb.tail := by
        have := hp 0 (Nat.succ_pos _)
        rwa [Nat.add_zero, Nat.mod_eq_of_lt ht] at this
      have hrest : ∀ j, j < rest.length →
          p ≠ (((rb.tail + 1) % rb.size) + j) % rb.size := by
        intro j hj
        rw [Nat.mod_add_mod]
        have := hp (j + 1) (by simp only [List.length_cons]; omega)
        rwa [show rb.tail + (j + 1) = rb.tail + 1 + j by omega] at this
      have h2 := ih { rb with buf := rb.buf.set rb.tail b,
                              tail := (rb.tail + 1) % rb.size } ht1 p hrest
      simp only [pushLoop] at h2 ⊢
      rw [h2]
      simp only [List.getD_eq_getElem?_getD]
      rw [List.getElem?_set_ne (fun h => hp0 h.symm)]

theorem pushLoop_getD_write (kdata : List Nat) : ∀ rb : Ringbuf,
    rb.buf.length = rb.size → rb.tail < rb.size → kdata.length ≤ rb.size →
    ∀ i, i < kdata.length →
    (pushLoop rb kdata).buf.getD ((rb.tail + i) % rb.size) 0 = kdata.getD i 0 := by
  induction kdata with
  | nil => intro rb _ _ _ i hi; exact absurd hi (Nat.not_lt_zero i)
  | cons b rest ih =>
      intro rb hlen ht hle i hi
      have hsz : 0 < rb.size := by omega
      have ht1 : (rb.tail + 1) % rb.size < rb.size := Nat.mod_lt _ hsz
      have hle' : rest.length + 1 ≤ rb.size := by simpa using hle
      match i with
      | 0 =>
          rw [Nat.add_zero, Nat.mod_eq_of_lt ht]
          have hfr := pushLoop_getD_frame rest
            { rb with buf := rb.buf.set rb.tail b,
                      tail := (rb.tail + 1) % rb.size } ht1 rb.tail
            (by
              intro j hj
              simp only [Nat.mod_add_mod]
              rw [show rb.tail + 1 + j = rb.tail + (1 + j) by omega]
              exact mod_shift_ne ht (by omega) (by omega))
          simp only [pushLoop]
          rw [hfr]
          simp only [List.getD_eq_getElem?_getD]
          rw [List.getElem?_set_self (by rw [hlen]; exact ht)]
          simp
      | Nat.succ k =>
          have h2 := ih { rb with buf := rb.buf.set rb.tail b,
                                  tail := (rb.tail + 1) % rb.size }
            (by simpa using hlen) ht1 (by show rest.length ≤ rb.size; omega)
            k (by simp only [List.length_cons] at hi; omega)
          simp only [pushLoop, Nat.mod_add_mod] at h2 ⊢
          rw [show rb.tail + (k + 1) = rb.tail + 1 + k by omega]
          exact h2

/-! ### `popLoop` lemmas -/

theorem popLoop_buf (n : Nat) : ∀ rb : Ringbuf, (popLoop rb n).1.buf = rb.buf := by
  induction n with
  | zero => intro rb; rfl
  | succ m ih => intro rb; simp [popLoop, ih]

theorem popLoop_size (n : Nat) : ∀ rb : Ringbuf, (popLoop rb n).1.size = rb.size := by
  induction n with
  | zero => intro rb; rfl
  | succ m ih => intro rb; simp [popLoop, ih]

theorem popLoop_tail (n : Nat) : ∀ rb : Ringbuf, (popLoop rb n).1.tail = rb.tail := by
  induction n with
  | zero => intro rb; rfl
  | succ m ih => intro rb; simp [popLoop, ih]

theorem popLoop_count (n : Nat) : ∀ rb : Ringbuf, (popLoop rb n).1.count = rb.count := by
  induction n with
  | zero => intro rb; rfl
  | succ m ih => intro rb; simp [popLoop, ih]

theorem popLoop_head (n : Nat) : ∀ rb : Ringbuf, rb.head < rb.size →
    (popLoop rb n).1.head = (rb.head + n) % rb.size := by
  induction n with
  | zero => intro rb hh; simp [popLoop, Nat.mod_eq_of_lt hh]
  | succ m ih =>
      intro rb hh
      have hsz : 0 < rb.size := by omega
      have hh1 : (rb.head + 1) % rb.size < rb.size := Nat.mod_lt _ hsz
      have h2 := ih { rb with head := (rb.head + 1) % rb.size } hh1
      simp only [popLoop] at h2 ⊢
      rw [h2]
      simp only [Nat.mod_add_mod]
      congr 1
      omega

theorem popLoop_out (n : Nat) : ∀ rb : Ringbuf, rb.head < rb.size →
    (popLoop rb n).2 =
      (List.range n).map (fun i => rb.buf.getD ((rb.head + i) % rb.size) 0) := by
  induction n with
  | zero => intro rb _; rfl
  | succ m ih =>
      intro rb hh
      have hsz : 0 < rb.size := by omega
      have hh1 : (rb.head + 1) % rb.size < rb.size := Nat.mod_lt _ hsz
      have h2 := ih { rb with head := (rb.head + 1) % rb.size } hh1
      simp only [popLoop] at h2 ⊢
      rw [h2]
      rw [List.range_succ_eq_map, List.map_cons, List.map_map]
      congr 1
      · rw [Nat.add_zero, Nat.mod_eq_of_lt hh]
      · apply List.map_congr_left
        intro i _
        simp only [Function.comp_apply, Nat.mod_add_mod]
        congr 2
        omega

/-- Reading a list back out index-by-index with `getD` reproduces it. -/
theorem map_getD_range (l : List Nat) :
    (List.range l.length).map (fun k => l.getD k 0) = l := by
  induction l with
  | nil => rfl
  | cons a t ih =>
      rw [List.length_cons, List.range_succ_eq_map, List.map_cons, List.map_map]
      congr 1

/-! ### Contents-level characterisation of push and pop -/

theorem push_locked_eq_of_fit (rb : Ringbuf) (d : List Nat)
    (hfit : d.length ≤ rb.size - rb.count) :
    ringbuf_push_locked rb d =
      (.ok d.length, { pushLoop rb d with count := rb.count + d.length }) := by
  unfold ringbuf_push_locked
  rw [if_neg (by omega)]
  simp [pushLoop_count]

theorem push_locked_contents (rb : Ringbuf) (d : List Nat)
    (hInv : Inv rb) (hcons : rb.tail = (rb.head + rb.count) % rb.size)
    (hfit : d.length ≤ rb.size - rb.count) :
    contents (ringbuf_push_locked rb d).2 = contents rb ++ d := by
  obtain ⟨hlen, hcnt, hidx, hzero⟩ := hInv
  rw [push_locked_eq_of_fit rb d hfit]
  by_cases hd : d = []
  · subst hd
    simp [contents, pushLoop]
  · have hdl : 0 < d.length := List.length_pos.mpr hd
    have hsz : 0 < rb.size := by omega
    have hh : rb.head < rb.size := (hidx hsz).1
    have htl : rb.tail < rb.size := (hidx hsz).2
    simp only [contents, pushLoop_head d rb, pushLoop_size d rb]
    rw [List.range_add, List.map_append, List.map_map]
    congr 1
    · apply List.map_congr_left
      intro i hi
      have hi' : i < rb.count := List.mem_range.mp hi
      apply pushLoop_getD_frame d rb htl
      intro j hj
      rw [hcons, Nat.mod_add_mod,
        show rb.head + rb.count + j = rb.head + (rb.count + j) by omega]
      intro heq
      have := add_mod_inj (by omega) (by omega) heq
      omega
    · conv_rhs => rw [← map_getD_range d]
      apply List.map_congr_left
      intro i hi
      have hi' : i < d.length := List.mem_range.mp hi
      simp only [Function.comp_apply]
      rw [show rb.head + (rb.count + i) = rb.head + rb.count + i by omega,
        show (rb.head + rb.count + i) % rb.size = (rb.tail + i) % rb.size by
          rw [hcons, Nat.mod_add_mod]]
      exact pushLoop_getD_write d rb hlen htl (by omega) i hi'

theorem contents_take (rb : Ringbuf) (n : Nat) (hn : n ≤ rb.count) :
    (contents rb).take n =
      (List.range n).map (fun i => rb.buf.getD ((rb.head + i) % rb.size) 0) := by
  unfold contents
  rw [← List.map_take, List.take_range, Nat.min_eq_left hn]

theorem contents_drop (rb : Ringbuf) (n : Nat) (hn : n ≤ rb.count) :
    (contents rb).drop n =
      (List.range (rb.count - n)).map
        (fun i => rb.buf.getD ((rb.head + n + i) % rb.size) 0) := by
  unfold contents
  conv_lhs => rw [show rb.count = n + (rb.count - n) by omega]
  rw [List.range_add, List.map_append,
    List.drop_left' (by rw [List.length_map, List.length_range]), List.map_map]
  apply List.map_congr_left
  intro i _
  simp only [Function.comp_apply]
  rw [show rb.head + (n + i) = rb.head + n + i by omega]

theorem pop_locked_out (rb : Ringbuf) (len : Nat) (hInv : Inv rb) :
    (ringbuf_pop_locked rb len).2.1 = (contents rb).take (min len rb.count) := by
  obtain ⟨hlen, hcnt, hidx, hzero⟩ := hInv
  rw [contents_take rb _ (Nat.min_le_right _ _)]
  by_cases hn : min len rb.count = 0
  · unfold ringbuf_pop_locked
    rw [hn]
    simp [popLoop]
  · have hc : 0 < rb.count := by omega
    have hsz : 0 < rb.size := by
      by_contra h
      have := hzero (by omega)
      omega
    have hh : rb.head < rb.size := (hidx hsz).1
    unfold ringbuf_pop_locked
    exact popLoop_out (min len rb.count) rb hh

theorem pop_locked_contents (rb : Ringbuf) (len : Nat) (hInv : Inv rb) :
    contents (ringbuf_pop_locked rb len).2.2 =
      (contents rb).drop (min len rb.count) := by
  obtain ⟨hlen, hcnt, hidx, hzero⟩ := hInv
  rw [contents_drop rb _ (Nat.min_le_right _ _)]
  by_cases hn : min len rb.count = 0
  · unfold ringbuf_pop_locked
    rw [hn]
    simp [popLoop, contents]
  · have hc : 0 < rb.count := by omega
    have hsz : 0 < rb.size := by
      by_contra h
      have := hzero (by omega)
      omega
    have hh : rb.head < rb.size := (hidx hsz).1
    unfold ringbuf_pop_locked
    simp only [contents, popLoop_buf, popLoop_size,
      popLoop_head (min len rb.count) rb hh, Nat.mod_add_mod]

/-! ### Invariant preservation -/

theorem freeState_inv : Inv freeState := by
  constructor <;> simp [freeState]

theorem push_locked_inv (rb : Ringbuf) (d : List Nat) (hInv : Inv rb) :
    Inv (ringbuf_push_locked rb d).2 := by
  obtain ⟨hlen, hcnt, hidx, hzero⟩ := hInv
  by_cases hfit : d.length > rb.size - rb.count
  · unfold ringbuf_push_locked
    rw [if_pos hfit]
    exact ⟨hlen, hcnt, hidx, hzero⟩
  · push_neg at hfit
    rw [push_locked_eq_of_fit rb d hfit]
    by_cases hsz : 0 < rb.size
    · have hh : rb.head < rb.size := (hidx hsz).1
      have htl : rb.tail < rb.size := (hidx hsz).2
      refine ⟨?_, ?_, ?_, ?_⟩
      · show (pushLoop rb d).buf.length = (pushLoop rb d).size
        rw [pushLoop_buf_length, pushLoop_size, hlen]
      · show rb.count + d.length ≤ (pushLoop rb d).size
        rw [pushLoop_size]
        omega
      · intro h
        rw [pushLoop_size] at h
        constructor
        · show (pushLoop rb d).head < (pushLoop rb d).size
          rw [pushLoop_head, pushLoop_size]
          exact hh
        · show (pushLoop rb d).tail < (pushLoop rb d).size
          rw [pushLoop_tail d rb htl, pushLoop_size]
          exact Nat.mod_lt _ hsz
      · intro h
        rw [show ({ pushLoop rb d with count := rb.count + d.length } : Ringbuf).size
            = rb.size from pushLoop_size d rb] at h
        omega
    · have hsz0 : rb.size = 0 := by omega
      obtain ⟨hh0, ht0, hc0⟩ := hzero hsz0
      have hd : d = [] := by
        have := List.length_eq_zero.mp (by omega : d.length = 0)
        exact this
      subst hd
      refine ⟨?_, ?_, ?_, ?_⟩ <;>
        simp [pushLoop, hlen, hsz0, hh0, ht0, hc0]

theorem pop_locked_inv (rb : Ringbuf) (len : Nat) (hInv : Inv rb) :
    Inv (ringbuf_pop_locked rb len).2.2 := by
  obtain ⟨hlen, hcnt, hidx, hzero⟩ := hInv
  by_cases hsz : 0 < rb.size
  · have hh : rb.head < rb.size := (hidx hsz).1
    have htl : rb.tail < rb.size := (hidx hsz).2
    unfold ringbuf_pop_locked
    refine ⟨?_, ?_, ?_, ?_⟩
    · show (popLoop rb _).1.buf.length = (popLoop rb _).1.size
      rw [popLoop_buf, popLoop_size, hlen]
    · show rb.count - min len rb.count ≤ (popLoop rb _).1.size
      rw [popLoop_size]
      omega
    · intro h
      rw [popLoop_size] at h
      constructor
      · show (popLoop rb _).1.head < (popLoop rb _).1.size
        rw [popLoop_head _ rb hh, popLoop_size]
        exact Nat.mod_lt _ hsz
      · show (popLoop rb _).1.tail < (popLoop rb _).1.size
        rw [popLoop_tail, popLoop_size]
        exact htl
    · intro h
      rw [show ({ (popLoop rb (min len rb.count)).1 with
          count := rb.count - min len rb.count } : Ringbuf).size = rb.size
          from popLoop_size _ rb] at h
      omega
  · have hsz0 : rb.size = 0 := by omega
    obtain ⟨hh0, ht0, hc0⟩ := hzero hsz0
    unfold ringbuf_pop_locked
    rw [hc0]
    refine ⟨?_, ?_, ?_, ?_⟩ <;>
      simp [popLoop, hlen, hsz0, hh0, ht0, hc0]

theorem ioctl_setsize_inv (rb : Ringbuf) (copyOk : Bool) (ks : Int)
    (alloc : Option (List Nat)) (hInv : Inv rb)
    (hwf : ∀ mem, alloc = some mem → mem.length = ks.toNat) :
    Inv (ioctl_setsize rb copyOk ks alloc).2 := by
  unfold ioctl_setsize
  by_cases hcp : copyOk
  · simp only [hcp, Bool.not_true, Bool.false_eq_true, if_false]
    by_cases hks : ks ≤ 0
    · rw [if_pos hks]
      exact hInv
    · rw [if_neg hks]
      unfold ringbuf_init ringbuf_free
      by_cases hsz : ks.toNat = 0
      · rw [if_pos hsz]
        exact freeState_inv
      · rw [if_neg hsz]
        match halloc : alloc with
        | none => exact freeState_inv
        | some mem =>
            refine ⟨hwf mem rfl, by simp, ?_, ?_⟩
            · intro _
              simp only
              omega
            · intro h
              simp only at h
              omega
  · simp only [hcp, Bool.not_false, if_true]
    exact hInv

theorem ioctl_push_inv (rb : Ringbuf) (u : UserPush) (hInv : Inv rb) :
    Inv (ioctl_push rb u).2 := by
  have hpush := push_locked_inv rb u.data hInv
  unfold ioctl_push
  split
  · exact hInv
  split
  · exact hInv
  split
  · exact hInv
  split
  · exact hInv
  split
  · rename_i n rb1 heq
    rw [heq] at hpush
    exact hpush
  · rename_i e rb1 heq
    rw [heq] at hpush
    exact hpush

theorem ioctl_pop_inv (rb : Ringbuf) (u : UserPop) (hInv : Inv rb) :
    Inv (ioctl_pop rb u).2.1 := by
  have hpop := pop_locked_inv rb u.length.toNat hInv
  unfold ioctl_pop
  split
  · exact hInv
  split
  · exact hInv
  split
  · exact hInv
  split
  · dsimp only
    split
    · split
      · exact hpop
      split
      · exact hpop
      · exact hpop
    · exact hpop
  split
  · exact hInv
  · exact hInv

theorem applyReq_inv (rb : Ringbuf) (req : Request) (hInv : Inv rb)
    (hwf : req.wf = true) : Inv (applyReq rb req) := by
  unfold applyReq ringbuf_ioctl
  match req with
  | .setSize copyOk ks alloc =>
      apply ioctl_setsize_inv rb copyOk ks alloc hInv
      intro mem hmem
      subst hmem
      simp only [Request.wf] at hwf
      exact of_decide_eq_true hwf
  | .pushData u => exact ioctl_push_inv rb u hInv
  | .popData u => exact ioctl_pop_inv rb u hInv
  | .unknown c => exact hInv

theorem foldl_applyReq_inv (reqs : List Request) : ∀ rb : Ringbuf, Inv rb →
    (∀ req ∈ reqs, req.wf = true) → Inv (reqs.foldl applyReq rb) := by
  induction reqs with
  | nil => intro rb hInv _; exact hInv
  | cons r rest ih =>
      intro rb hInv hwf
      rw [List.foldl_cons]
      exact ih (applyReq rb r) (applyReq_inv rb r hInv (hwf r (List.mem_cons_self r rest)))
        (fun q hq => hwf q (List.mem_cons_of_mem r hq))

theorem runReqs_inv (reqs : List Request)
    (hwf : ∀ req ∈ reqs, req.wf = true) : Inv (runReqs reqs) :=
  foldl_applyReq_inv reqs freeState freeState_inv hwf

/-- Helper: an empty buffer has empty contents. -/
theorem contents_of_count_zero (rb : Ringbuf) (hc0 : rb.count = 0) :
    contents rb = [] := by
  unfold contents
  rw [hc0]
  rfl

/-- C1: for every byte sequence `X` with `len X ≤ capacity`, starting from an
empty buffer, `push X` succeeds returning `len X` and a subsequent
`pop (len X)` returns exactly the bytes of `X` in push order; moreover, in
the capacity-4 wraparound scenario (push 3 bytes, pop 2, push 3 more so the
write wraps, pop 4) the bytes come out in original push order across the
wrap boundary, for arbitrary byte values. -/
theorem claim_C1 :
    (∀ (rb : Ringbuf) (X : List Nat), Inv rb → rb.count = 0 → rb.tail = rb.head →
      X.length ≤ rb.size →
      (ringbuf_push_locked rb X).1 = .ok X.length ∧
      (ringbuf_pop_locked (ringbuf_push_locked rb X).2 X.length).2.1 = X) ∧
    (∀ a b c d e f : Nat,
      (ringbuf_pop_locked
        (ringbuf_push_locked ⟨[0, 0, 0, 0], 4, 0, 0, 0⟩ [a, b, c]).2 2).2.1 = [a, b] ∧
      (ringbuf_pop_locked
        (ringbuf_push_locked
          (ringbuf_pop_locked
            (ringbuf_push_locked ⟨[0, 0, 0, 0], 4, 0, 0, 0⟩ [a, b, c]).2 2).2.2
          [d, e, f]).2 4).2.1 = [c, d, e, f]) := by
  constructor
  · intro rb X hInv hc0 hte hfit'
    have hfit : X.length ≤ rb.size - rb.count := by omega
    obtain ⟨hlen, hcnt, hidx, hzero⟩ := hInv
    have hInv' : Inv rb := ⟨hlen, hcnt, hidx, hzero⟩
    have hcons : rb.tail = (rb.head + rb.count) % rb.size := by
      rw [hc0, Nat.add_zero, hte]
      by_cases hsz : 0 < rb.size
      · rw [Nat.mod_eq_of_lt ((hidx hsz).1)]
      · rw [show rb.size = 0 by omega, Nat.mod_zero]
    refine ⟨by rw [push_locked_eq_of_fit rb X hfit], ?_⟩
    have h1 : Inv (ringbuf_push_locked rb X).2 := push_locked_inv rb X hInv'
    rw [pop_locked_out _ _ h1]
    have hcount1 : (ringbuf_push_locked rb X).2.count = X.length := by
      rw [push_locked_eq_of_fit rb X hfit]
      simp [hc0]
    rw [hcount1, Nat.min_self,
      push_locked_contents rb X hInv' hcons hfit,
      contents_of_count_zero rb hc0, List.nil_append, List.take_length]
  · intro a b c d e f
    constructor <;>
      simp [ringbuf_push_locked, ringbuf_pop_locked, pushLoop, popLoop]

/-- Witness for C1: round trip of two bytes through an empty capacity-3
buffer whose indices sit at position 1. -/
theorem claim_C1_witness :
    (ringbuf_push_locked ⟨[0, 0, 0], 3, 1, 1, 0⟩ [4, 5]).1 = .ok 2 ∧
    (ringbuf_pop_locked
      (ringbuf_push_locked ⟨[0, 0, 0], 3, 1, 1, 0⟩ [4, 5]).2 2).2.1 = [4, 5] := by
  have h := claim_C1.1 ⟨[0, 0, 0], 3, 1, 1, 0⟩ [4, 5] (by decide) rfl rfl (by decide)
  exact ⟨h.1, h.2⟩

/-- C2: `push data` fails with `-ENOSPC` iff `len data > capacity − count`,
failure leaves the whole state unchanged, and success writes all bytes
starting at `tail` wrapping modulo capacity, advances
`tail = (tail + len) % capacity`, leaves `head` and `capacity` alone,
adds exactly `len` to `count` and returns `len` — never a partial write. -/
theorem claim_C2 (rb : Ringbuf) (data : List Nat) (hInv : Inv rb) :
    ((ringbuf_push_locked rb data).1 = .error .ENOSPC ↔
      data.length > rb.size - rb.count) ∧
    (data.length > rb.size - rb.count →
      ringbuf_push_locked rb data = (.error .ENOSPC, rb)) ∧
    (data.length ≤ rb.size - rb.count →
      (ringbuf_push_locked rb data).1 = .ok data.length ∧
      (ringbuf_push_locked rb data).2.count = rb.count + data.length ∧
      (ringbuf_push_locked rb data).2.tail = (rb.tail + data.length) % rb.size ∧
      (ringbuf_push_locked rb data).2.head = rb.head ∧
      (ringbuf_push_locked rb data).2.size = rb.size ∧
      ∀ i, i < data.length →
        (ringbuf_push_locked rb data).2.buf.getD ((rb.tail + i) % rb.size) 0 =
          data.getD i 0) := by
  obtain ⟨hlen, hcnt, hidx, hzero⟩ := hInv
  refine ⟨?_, ?_, ?_⟩
  · constructor
    · intro h
      by_contra hfit
      rw [push_locked_eq_of_fit rb data (by omega)] at h
      exact Except.noConfusion h
    · intro h
      unfold ringbuf_push_locked
      rw [if_pos h]
  · intro h
    unfold ringbuf_push_locked
    rw [if_pos h]
  · intro hfit
    rw [push_locked_eq_of_fit rb data hfit]
    by_cases hsz : 0 < rb.size
    · have htl : rb.tail < rb.size := (hidx hsz).2
      refine ⟨rfl, rfl, ?_, ?_, ?_, ?_⟩
      · show (pushLoop rb data).tail = _
        exact pushLoop_tail data rb htl
      · exact pushLoop_head data rb
      · exact pushLoop_size data rb
      · intro i hi
        exact pushLoop_getD_write data rb hlen htl (by omega) i hi
    · have hsz0 : rb.size = 0 := by omega
      obtain ⟨hh0, ht0, hc0⟩ := hzero hsz0
      have hd : data = [] := List.length_eq_zero.mp (by omega)
      subst hd
      refine ⟨rfl, rfl, ?_, rfl, rfl, ?_⟩
      · show rb.tail = (rb.tail + 0) % rb.size
        rw [Nat.add_zero, hsz0, Nat.mod_zero]
      · intro i hi
        exact absurd hi (by simp)

/-- Witness for C2: a wrapping two-byte push into a capacity-4 buffer
with `tail = 3`. -/
theorem claim_C2_witness :
    (ringbuf_push_locked ⟨[0, 0, 0, 0], 4, 3, 3, 0⟩ [8, 9]).1 = .ok 2 ∧
    (ringbuf_push_locked ⟨[0, 0, 0, 0], 4, 3, 3, 0⟩ [8, 9]).2.tail = (3 + 2) % 4 ∧
    (ringbuf_push_locked ⟨[0, 0, 0, 0], 4, 3, 3, 0⟩ [8, 9]).2.count = 0 + 2 := by
  have h := (claim_C2 ⟨[0, 0, 0, 0], 4, 3, 3, 0⟩ [8, 9] (by decide)).2.2 (by decide)
  exact ⟨h.1, h.2.2.1, h.2.1⟩

/-- C3: for every state satisfying the structural invariant and every
`maxLen`, pop returns exactly `n = min maxLen count` bytes, copied from
the positions `head, head+1, …` wrapping modulo capacity, advances
`head = (head + n) % capacity`, decrements `count` by `n`, leaves `tail`
and the storage untouched; on an empty buffer it returns `0` with the
state unchanged, and the returned byte count never exceeds
`min maxLen count`. -/
theorem claim_C3 (rb : Ringbuf) (maxLen : Nat) (hInv : Inv rb) :
    (ringbuf_pop_locked rb maxLen).1 = min maxLen rb.count ∧
    (ringbuf_pop_locked rb maxLen).2.1 =
      (List.range (min maxLen rb.count)).map
        (fun i => rb.buf.getD ((rb.head + i) % rb.size) 0) ∧
    (ringbuf_pop_locked rb maxLen).2.2.head =
      (rb.head + min maxLen rb.count) % rb.size ∧
    (ringbuf_pop_locked rb maxLen).2.2.count = rb.count - min maxLen rb.count ∧
    (ringbuf_pop_locked rb maxLen).2.2.tail = rb.tail ∧
    (ringbuf_pop_locked rb maxLen).2.2.buf = rb.buf ∧
    (rb.count = 0 →
      (ringbuf_pop_locked rb maxLen).1 = 0 ∧
      (ringbuf_pop_locked rb maxLen).2.2 = rb) ∧
    (ringbuf_pop_locked rb maxLen).1 ≤ min maxLen rb.count := by
  obtain ⟨hlen, hcnt, hidx, hzero⟩ := hInv
  have hInv' : Inv rb := ⟨hlen, hcnt, hidx, hzero⟩
  have hout := pop_locked_out rb maxLen hInv'
  rw [contents_take rb _ (Nat.min_le_right _ _)] at hout
  refine ⟨rfl, hout, ?_, ?_, ?_, ?_, ?_, le_refl _⟩
  · show (popLoop rb (min maxLen rb.count)).1.head = _
    by_cases hn : min maxLen rb.count = 0
    · rw [hn]
      show rb.head = (rb.head + 0) % rb.size
      rw [Nat.add_zero]
      by_cases hsz : 0 < rb.size
      · rw [Nat.mod_eq_of_lt ((hidx hsz).1)]
      · rw [show rb.size = 0 by omega, Nat.mod_zero]
    · have hsz : 0 < rb.size := by
        by_contra h
        have := hzero (by omega)
        omega
      exact popLoop_head _ rb ((hidx hsz).1)
  · show rb.count - min maxLen rb.count = _
    rfl
  · exact popLoop_tail _ rb
  · exact popLoop_buf _ rb
  · intro hc0
    have hn0 : min maxLen rb.count = 0 := by rw [hc0, Nat.min_zero]
    constructor
    · show min maxLen rb.count = 0
      exact hn0
    · show ({ (popLoop rb (min maxLen rb.count)).1 with
        count := rb.count - min maxLen rb.count } : Ringbuf) = rb
      rw [hn0]
      rfl

/-- Witness for C3: popping 2 of 3 stored bytes from a capacity-4
buffer. -/
theorem claim_C3_witness :
    (ringbuf_pop_locked ⟨[5, 6, 7, 0], 4, 0, 3, 3⟩ 2).1 = min 2 3 ∧
    (ringbuf_pop_locked ⟨[5, 6, 7, 0], 4, 0, 3, 3⟩ 2).2.2.count = 3 - min 2 3 ∧
    (ringbuf_pop_locked ⟨[5, 6, 7, 0], 4, 0, 3, 3⟩ 2).2.2.head = (0 + min 2 3) % 4 := by
  have h := claim_C3 ⟨[5, 6, 7, 0], 4, 0, 3, 3⟩ 2 (by decide)
  exact ⟨h.1, h.2.2.2.1, h.2.2.1⟩

/-- C4: in every state reachable from module load by any sequence of
resize/push/pop ioctl requests (under the kmalloc/copy size contract),
`0 ≤ count ≤ capacity` holds, `head < capacity` and `tail < capacity`
hold whenever a buffer instance exists, and every single operation
preserves this invariant. -/
theorem claim_C4 :
    (∀ reqs : List Request, (∀ req ∈ reqs, req.wf = true) → Inv (runReqs reqs)) ∧
    (∀ (rb : Ringbuf) (req : Request), Inv rb → req.wf = true →
      Inv (applyReq rb req)) :=
  ⟨runReqs_inv, applyReq_inv⟩

/-- Witness for C4 at a concrete request sequence exercising all
three opcodes. -/
theorem claim_C4_witness :
    (∀ req ∈ ([.setSize true 4 (some [0, 0, 0, 0]),
               .pushData ⟨true, 2, true, true, [7, 9]⟩,
               .popData ⟨true, 1, true, false, true, true⟩] : List Request),
       req.wf = true) ∧
    Inv (runReqs [.setSize true 4 (some [0, 0, 0, 0]),
                  .pushData ⟨true, 2, true, true, [7, 9]⟩,
                  .popData ⟨true, 1, true, false, true, true⟩]) :=
  ⟨by decide, claim_C4.1 _ (by decide)⟩

/-- C5: resize discards the current instance unconditionally: with
`capacity > 0`, a successful `SET_SIZE_OF_QUEUE` yields
`count = head = tail = 0` and storage of exactly the new capacity,
regardless of the prior state; if the new allocation fails, the prior
instance has already been destroyed and the state is the freed one
(no usable buffer) with `-ENOMEM` returned. -/
theorem claim_C5 (rb : Ringbuf) (ks : Int) (hks : 0 < ks) :
    (∀ mem : List Nat, mem.length = ks.toNat →
      ioctl_setsize rb true ks (some mem) =
        (.ok 0, { buf := mem, size := ks.toNat, head := 0, tail := 0, count := 0 }) ∧
      (ioctl_setsize rb true ks (some mem)).2.buf.length = ks.toNat) ∧
    ioctl_setsize rb true ks none = (.err .ENOMEM, freeState) := by
  have hks' : ¬ks ≤ 0 := by omega
  have hsz : ¬ks.toNat = 0 := by omega
  constructor
  · intro mem hmem
    constructor
    · unfold ioctl_setsize ringbuf_free ringbuf_init
      simp only [Bool.not_true, Bool.false_eq_true, if_false, if_neg hks',
        if_neg hsz]
    · unfold ioctl_setsize ringbuf_free ringbuf_init
      simp only [Bool.not_true, Bool.false_eq_true, if_false, if_neg hks',
        if_neg hsz]
      exact hmem
  · unfold ioctl_setsize ringbuf_free ringbuf_init
    simp only [Bool.not_true, Bool.false_eq_true, if_false, if_neg hks',
      if_neg hsz]
    rfl

/-- Witness for C5: resizing a populated 2-byte buffer to 3 bytes. -/
theorem claim_C5_witness :
    ioctl_setsize ⟨[1, 2], 2, 0, 1, 2⟩ true 3 (some [7, 7, 7]) =
      (.ok 0, { buf := [7, 7, 7], size := 3, head := 0, tail := 0, count := 0 }) ∧
    ioctl_setsize ⟨[1, 2], 2, 0, 1, 2⟩ true 3 none = (.err .ENOMEM, freeState) := by
  have h := claim_C5 ⟨[1, 2], 2, 0, 1, 2⟩ 3 (by decide)
  exact ⟨(h.1 [7, 7, 7] (by decide)).1, h.2⟩

/-- C7 (amended): a request carrying an unknown opcode fails with
`-EINVAL` — the very same error code the protocol uses for
InvalidArgument (non-positive length/capacity) — and leaves the state
unchanged; the code has no distinct Unsupported error kind. -/
theorem claim_C7 (rb : Ringbuf) (c : Nat) :
    ringbuf_ioctl rb (.unknown c) = (.err .EINVAL, rb, []) := rfl

/-- Counterexample to C7 as stated: at the concrete unknown opcode `1234`
the ioctl returns `-EINVAL`, which is identical to the error returned for
a push with non-positive length `0`; so the unknown-opcode error is not
an error kind distinct from InvalidArgument. -/
theorem claim_C7_counterexample :
    (ringbuf_ioctl freeState (.unknown 1234)).1 = .err .EINVAL ∧
    (ringbuf_ioctl freeState (.unknown 1234)).1 =
      (ringbuf_ioctl freeState (.pushData ⟨true, 0, true, true, []⟩)).1 := by
  exact ⟨rfl, rfl⟩

/-- C8: a `-EFAULT` during push's staging copy (after the header copy and
the positive-length check, before any lock is taken) leaves the buffer
completely unmutated, and both PUSH_DATA and POP_DATA fail `-EINVAL`
for a non-positive requested length before touching the buffer. -/
theorem claim_C8 (rb : Ringbuf) (upu : UserPush) (upo : UserPop) :
    (upu.copyHdrOk = true → 0 < upu.length → upu.kmallocOk = true →
      upu.copyDataOk = false → ioctl_push rb upu = (.err .EFAULT, rb)) ∧
    (upu.copyHdrOk = true → upu.length ≤ 0 →
      ioctl_push rb upu = (.err .EINVAL, rb)) ∧
    (upo.copyHdrOk = true → upo.length ≤ 0 →
      ioctl_pop rb upo = (.err .EINVAL, rb, [])) := by
  refine ⟨?_, ?_, ?_⟩
  · intro h1 h2 h3 h4
    unfold ioctl_push
    rw [h1, h3, h4]
    simp [show ¬upu.length ≤ 0 by omega]
  · intro h1 h2
    unfold ioctl_push
    rw [h1]
    simp [h2]
  · intro h1 h2
    unfold ioctl_pop
    rw [h1]
    simp [h2]

/-- Witness for C8 at concrete requests against the freed state. -/
theorem claim_C8_witness :
    ioctl_push freeState ⟨true, 3, true, false, [1, 2, 3]⟩ =
      (.err .EFAULT, freeState) ∧
    ioctl_push freeState ⟨true, 0, true, true, []⟩ = (.err .EINVAL, freeState) ∧
    ioctl_pop freeState ⟨true, -1, true, false, true, true⟩ =
      (.err .EINVAL, freeState, []) := by
  refine ⟨(claim_C8 freeState ⟨true, 3, true, false, [1, 2, 3]⟩
      ⟨true, -1, true, false, true, true⟩).1 rfl (by decide) rfl rfl, ?_,
    (claim_C8 freeState ⟨true, 3, true, false, [1, 2, 3]⟩
      ⟨true, -1, true, false, true, true⟩).2.2 rfl (by decide)⟩
  exact (claim_C8 freeState ⟨true, 0, true, true, []⟩
    ⟨true, -1, true, false, true, true⟩).2.1 rfl (by decide)

/-- C9: in the uninitialised state (no storage, `capacity = count = 0`),
a push of any positive length fails `-ENOSPC` leaving the state
unchanged, a pure pop returns `0` bytes with the state unchanged, and a
full buffer (`count = capacity`) yields the very same `-ENOSPC` for such
a push — there is no dedicated no-buffer error kind to tell the two
apart. -/
theorem claim_C9 (rb : Ringbuf) (kdata : List Nat) (len : Nat)
    (hsz : rb.size = 0) (hc : rb.count = 0) (hd : 0 < kdata.length) :
    ringbuf_push_locked rb kdata = (.error .ENOSPC, rb) ∧
    ringbuf_pop_locked rb len = (0, [], rb) ∧
    ∀ rbfull : Ringbuf, rbfull.count = rbfull.size →
      (ringbuf_push_locked rbfull kdata).1 = .error .ENOSPC := by
  refine ⟨?_, ?_, ?_⟩
  · unfold ringbuf_push_locked
    rw [if_pos (by omega)]
  · unfold ringbuf_pop_locked
    have hn0 : min len rb.count = 0 := by rw [hc]; exact Nat.min_zero len
    rw [hn0]
    rfl
  · intro rbfull hfull
    unfold ringbuf_push_locked
    rw [if_pos (by omega)]

/-- Witness for C9: module-load state, pushing one byte and popping 3. -/
theorem claim_C9_witness :
    ringbuf_push_locked freeState [5] = (.error .ENOSPC, freeState) ∧
    ringbuf_pop_locked freeState 3 = (0, [], freeState) ∧
    (ringbuf_push_locked ⟨[1, 2], 2, 0, 0, 2⟩ [5]).1 = .error .ENOSPC := by
  have h := claim_C9 freeState [5] 3 rfl rfl (by decide)
  exact ⟨h.1, h.2.1, h.2.2 ⟨[1, 2], 2, 0, 0, 2⟩ rfl⟩

theorem pushLoopG_eq (kdata : List Nat) : ∀ rb : Ringbuf, 0 < rb.size →
    pushLoopG rb kdata = some (pushLoop rb kdata) := by
  induction kdata with
  | nil => intro rb _; rfl
  | cons b rest ih =>
      intro rb hsz
      unfold pushLoopG pushLoop modG
      rw [if_neg (by omega)]
      exact ih _ hsz

theorem popLoopG_eq (n : Nat) : ∀ rb : Ringbuf, 0 < rb.size →
    popLoopG rb n = some (popLoop rb n) := by
  induction n with
  | zero => intro rb _; rfl
  | succ m ih =>
      intro rb hsz
      unfold popLoopG popLoop modG
      rw [if_neg (by omega)]
      dsimp only
      rw [ih { rb with head := (rb.head + 1) % rb.size } hsz]

/-- C10: the `% capacity` index updates inside push's and pop's copy
loops never execute with `capacity = 0` in any state satisfying the
structural invariant: the guarded (Option-returning) variants of both
locked operations never hit their division-by-zero branch and agree with
the unguarded embedding. -/
theorem claim_C10 (rb : Ringbuf) (hInv : Inv rb) :
    (∀ kdata : List Nat,
      ringbuf_push_lockedG rb kdata = some (ringbuf_push_locked rb kdata)) ∧
    (∀ len : Nat,
      ringbuf_pop_lockedG rb len = some (ringbuf_pop_locked rb len)) := by
  obtain ⟨hlen, hcnt, hidx, hzero⟩ := hInv
  constructor
  · intro kdata
    unfold ringbuf_push_lockedG ringbuf_push_locked
    by_cases hg : kdata.length > rb.size - rb.count
    · rw [if_pos hg, if_pos hg]
    · rw [if_neg hg, if_neg hg]
      by_cases hsz : 0 < rb.size
      · rw [pushLoopG_eq kdata rb hsz]
      · have hsz0 : rb.size = 0 := by omega
        have hc0 : rb.count = 0 := (hzero hsz0).2.2
        have hk : kdata = [] := List.length_eq_zero.mp (by omega)
        subst hk
        rfl
  · intro len
    unfold ringbuf_pop_lockedG ringbuf_pop_locked
    by_cases hc : 0 < rb.count
    · have hsz : 0 < rb.size := by
        by_contra h
        have := hzero (by omega)
        omega
      dsimp only
      rw [popLoopG_eq _ rb hsz]
    · have hn0 : min len rb.count = 0 := by omega
      rw [hn0]
      rfl

/-- Witness for C10: the guarded operations on concrete valid states. -/
theorem claim_C10_witness :
    ringbuf_push_lockedG ⟨[0, 0, 0], 3, 0, 0, 0⟩ [4, 5] =
      some (ringbuf_push_locked ⟨[0, 0, 0], 3, 0, 0, 0⟩ [4, 5]) ∧
    ringbuf_pop_lockedG ⟨[4, 5, 0], 3, 0, 2, 2⟩ 2 =
      some (ringbuf_pop_locked ⟨[4, 5, 0], 3, 0, 2, 2⟩ 2) :=
  ⟨(claim_C10 ⟨[0, 0, 0], 3, 0, 0, 0⟩ (by decide)).1 [4, 5],
   (claim_C10 ⟨[4, 5, 0], 3, 0, 2, 2⟩ (by decide)).2 2⟩

end Ringbufdev
